import Mathlib

/-!
Shallow embedding of the `redux-persist-expo-fs-secure-storage` adapter
(`src/index.js`).  The adapter stores one file per key under a base folder,
with values encrypted by a process-wide key kept in a secure secret store.

The JavaScript platform builtins used by the source (`Array.join`,
`String.split`, `encodeURIComponent`, `decodeURIComponent`) are modelled
at the character level; the external collaborators (expo file system,
expo secure store, the AES cipher, the uuid generator) are modelled as
operations over an explicit `World` state, with the cipher and the uuid
value kept abstract (they are external packages, not code of this
repository).
-/

deriving instance DecidableEq for Except

namespace FsSecure

/-! ## JS string builtins: split/join on the `/` separator -/

/-- `s.split('/')` on character lists: always returns a non-empty list of
separator-free segments. -/
def splitSlash : List Char → List (List Char)
  | [] => [[]]
  | c :: r =>
    let rest := splitSlash r
    if c = '/' then [] :: rest
    else
      match rest with
      | [] => [[c]]
      | s :: ss => (c :: s) :: ss

/-- `parts.join('/')` on character lists. -/
def joinSlash : List (List Char) → List Char
  | [] => []
  | [s] => s
  | s :: rest => s ++ '/' :: joinSlash rest

/-- The filter of `resolvePath`: JS `part && part !== '.'` (a string is
falsy exactly when empty). -/
def keepSeg (s : List Char) : Bool := !s.isEmpty && s ≠ ['.']

/-- `resolvePath(...paths)` from the source, on character lists:
join with `/`, split on `/`, drop empty and `"."` segments, rejoin. -/
def resolveChars (ls : List (List Char)) : List Char :=
  joinSlash ((splitSlash (joinSlash ls)).filter keepSeg)

/-- `resolvePath(...paths)` from the source (variadic arguments become a
list). -/
def resolvePath (paths : List String) : String :=
  String.mk (resolveChars (paths.map String.data))

/-! ## JS `encodeURIComponent` / `decodeURIComponent`

`encodeURIComponent` leaves the unreserved characters
`A-Z a-z 0-9 - _ . ! ~ * ' ( )` alone and replaces every other character
by the `%XX` (uppercase hex) encoding of its UTF-8 bytes.
`decodeURIComponent` inverts this and throws `URIError` on malformed
input; failure is modelled by `Option`. -/

/-- Characters `encodeURIComponent` leaves unescaped. -/
def uriUnreserved (c : Char) : Bool :=
  let n := c.toNat
  (65 ≤ n && n ≤ 90) || (97 ≤ n && n ≤ 122) || (48 ≤ n && n ≤ 57) ||
  n == 45 || n == 95 || n == 46 || n == 33 || n == 126 ||
  n == 42 || n == 39 || n == 40 || n == 41

/-- The UTF-8 bytes of one character. -/
def utf8Bytes (c : Char) : List Nat :=
  if c.toNat < 0x80 then [c.toNat]
  else if c.toNat < 0x800 then [0xC0 + c.toNat / 64, 0x80 + c.toNat % 64]
  else if c.toNat < 0x10000 then
    [0xE0 + c.toNat / 4096, 0x80 + c.toNat / 64 % 64, 0x80 + c.toNat % 64]
  else
    [0xF0 + c.toNat / 262144, 0x80 + c.toNat / 4096 % 64,
     0x80 + c.toNat / 64 % 64, 0x80 + c.toNat % 64]

/-- Uppercase hex digit for `n < 16`. -/
def hexDigit (n : Nat) : Char :=
  if n < 10 then Char.ofNat (48 + n) else Char.ofNat (55 + n)

/-- The three characters `%XY` encoding one byte. -/
def pctByte (b : Nat) : List Char := ['%', hexDigit (b / 16), hexDigit (b % 16)]

/-- Encoding of a single character. -/
def encChar (c : Char) : List Char :=
  if uriUnreserved c then [c] else (utf8Bytes c).flatMap pctByte

/-- `encodeURIComponent` on character lists. -/
def encList (l : List Char) : List Char := l.flatMap encChar

/-- JS `encodeURIComponent`. -/
def encodeURIComponent (s : String) : String := String.mk (encList s.data)

/-- Numeric value of one hex digit character (either case), `none` for
non-hex characters. -/
def hexVal (c : Char) : Option Nat :=
  let n := c.toNat
  if 48 ≤ n ∧ n ≤ 57 then some (n - 48)
  else if 65 ≤ n ∧ n ≤ 70 then some (n - 55)
  else if 97 ≤ n ∧ n ≤ 102 then some (n - 87)
  else none

/-- First decoding phase: every `%XY` becomes the byte `XY`
(`Sum.inl`), every other character stays literal (`Sum.inr`);
a truncated or non-hex escape is malformed. -/
def tokens : List Char → Option (List (Sum Nat Char))
  | [] => some []
  | c :: r =>
    if c = '%' then
      match r with
      | h :: l :: r2 =>
        match hexVal h, hexVal l with
        | some hv, some lv => (tokens r2).map (fun ts => Sum.inl (hv * 16 + lv) :: ts)
        | _, _ => none
      | _ => none
    else (tokens r).map (fun ts => Sum.inr c :: ts)

/-- The UTF-8 decoder's running state: either between characters, or in
the middle of a multi-byte sequence (`pending needed minCode acc`:
continuation bytes still expected, smallest code point the sequence may
legally produce — rejecting overlong encodings — and the bits read so
far). -/
inductive DecState where
  | clean : DecState
  | pending : Nat → Nat → Nat → DecState
deriving DecidableEq, Repr

/-- Second decoding phase: literal characters pass through, `%`-escaped
byte runs are decoded as UTF-8; overlong encodings, surrogates,
out-of-range code points, stray continuation bytes and truncated
sequences are malformed (`none`). -/
def decLoop : DecState → List (Sum Nat Char) → Option (List Char)
  | DecState.clean, [] => some []
  | DecState.pending _ _ _, [] => none
  | DecState.clean, Sum.inr c :: ts => (decLoop DecState.clean ts).map (fun cs => c :: cs)
  | DecState.clean, Sum.inl b :: ts =>
    if b < 0x80 then (decLoop DecState.clean ts).map (fun cs => Char.ofNat b :: cs)
    else if b < 0xC0 then none
    else if b < 0xE0 then decLoop (DecState.pending 1 0x80 (b - 0xC0)) ts
    else if b < 0xF0 then decLoop (DecState.pending 2 0x800 (b - 0xE0)) ts
    else if b < 0xF8 then decLoop (DecState.pending 3 0x10000 (b - 0xF0)) ts
    else none
  | DecState.pending _ _ _, Sum.inr _ :: _ => none
  | DecState.pending needed minCode acc, Sum.inl b :: ts =>
    if 0x80 ≤ b ∧ b < 0xC0 then
      if needed = 1 then
        if minCode ≤ acc * 64 + (b - 0x80) ∧ acc * 64 + (b - 0x80) < 0x110000 ∧
            ¬(0xD800 ≤ acc * 64 + (b - 0x80) ∧ acc * 64 + (b - 0x80) < 0xE000) then
          (decLoop DecState.clean ts).map (fun cs => Char.ofNat (acc * 64 + (b - 0x80)) :: cs)
        else none
      else decLoop (DecState.pending (needed - 1) minCode (acc * 64 + (b - 0x80))) ts
    else none

/-- JS `decodeURIComponent`; `none` models a thrown `URIError`. -/
def decodeURIComponent (s : String) : Option String :=
  match tokens s.data with
  | none => none
  | some ts => (decLoop DecState.clean ts).map String.mk

/-! ## The world state

`files` and `dirs` model the expo file system (one flat association of
full path strings to contents, plus the set of existing directories);
`secrets` models the expo secure store; `cache` is the module-level
`encryptionKey` variable; `nextUuid` is the value `uuidv4()` would
return; `secGetErr` / `secSetErr` inject failures of the secure store's
get / set calls (the message the thrown error would carry). -/
structure World where
  files : List (String × String)
  dirs : List String
  secrets : List (String × String)
  cache : Option String
  nextUuid : String
  secGetErr : Option String
  secSetErr : Option String
deriving DecidableEq, Repr

/-- First value bound to a key in an association list. -/
def lookup (l : List (String × String)) (k : String) : Option String :=
  match l with
  | [] => none
  | (k', v) :: rest => if k' = k then some v else lookup rest k

/-- Bind a key to a value in an association list, replacing an existing
binding. -/
def setAssoc (l : List (String × String)) (k v : String) : List (String × String) :=
  match l with
  | [] => [(k, v)]
  | (k', v') :: rest => if k' = k then (k, v) :: rest else (k', v') :: setAssoc rest k v

/-- Is `p` strictly below the directory `base` (i.e. does `p` start with
`base ++ "/"`)? -/
def underPath (base p : String) : Bool :=
  (base ++ "/").data.isPrefixOf p.data

/-- `FileSystem.getInfoAsync(p).exists`: a path exists when it is a file
or a directory. -/
def pathExists (w : World) (p : String) : Bool :=
  (lookup w.files p).isSome || w.dirs.contains p

/-- `FileSystem.makeDirectoryAsync(p, {intermediates: true})`: create the
directory if missing. -/
def makeDirectoryAsync (w : World) (p : String) : World :=
  if w.dirs.contains p then w else { w with dirs := p :: w.dirs }

/-- `FileSystem.writeAsStringAsync(p, content)`: create or overwrite the
file; writing over an existing directory is an error. -/
def writeAsStringAsync (w : World) (p content : String) : Except String World :=
  if w.dirs.contains p then Except.error "target is a directory"
  else Except.ok { w with files := setAssoc w.files p content }

/-- `FileSystem.readAsStringAsync(p)`: the file's content, or an error
when no file is at `p`. -/
def readAsStringAsync (w : World) (p : String) : Except String String :=
  match lookup w.files p with
  | some c => Except.ok c
  | none => Except.error "could not read file"

/-- `FileSystem.deleteAsync(p, {idempotent: true})`: remove the file or
directory at `p` together with everything below it; never fails. -/
def deleteAsync (w : World) (p : String) : World :=
  { w with
    files := w.files.filter (fun f => !(f.1 == p || underPath p f.1)),
    dirs := w.dirs.filter (fun d => !(d == p || underPath p d)) }

/-- The immediate-child name of `p` inside directory `base`, when `p` is
directly below `base`. -/
def entryName (base p : String) : Option String :=
  if underPath base p then
    if (p.data.drop (base ++ "/").data.length).contains '/' then none
    else some (String.mk (p.data.drop (base ++ "/").data.length))
  else none

/-- `FileSystem.readDirectoryAsync(base)`: names of the immediate
children (files and directories) of `base`. -/
def readDirectoryAsync (w : World) (base : String) : Except String (List String) :=
  if w.dirs.contains base then
    Except.ok ((w.files.map (fun f => f.1) ++ w.dirs).filterMap (entryName base))
  else Except.error "directory does not exist"

/-! ## The external cipher

`AES.encrypt(value, key).toString()` and
`AES.decrypt(ciphertext, key)` followed by `.toString(Utf8)` come from
the crypto-js package, outside this repository; they are kept abstract.
A `dec` error models the throw the source catches as
`Could not decrypt state`. -/
structure Cipher where
  enc : String → String → String
  dec : String → String → Except String String

/-- The fixed secure-store slot name used by the source. -/
def encryptionKeyName : String := "expoFsSecureEncryptionKey"

/-- `SecureStore.setItemAsync` + caching, reached when the stored secret
is absent or falsy: generate `uuidv4()`, persist it, cache it. -/
def genNewKey (w : World) : Except String String × World :=
  match w.secSetErr with
  | some msg => (Except.error ("Error getting encryption key " ++ msg), w)
  | none =>
    (Except.ok w.nextUuid,
      { w with secrets := setAssoc w.secrets encryptionKeyName w.nextUuid,
               cache := some w.nextUuid })

/-- `getEncryptionKey` from the source: return the cached key, else read
the secure store, generating and persisting a fresh uuid when the stored
value is absent or falsy; any secure-store error is wrapped as
`Error getting encryption key <msg>` and leaves the cache unset. -/
def getEncryptionKey (w : World) : Except String String × World :=
  match w.cache with
  | some k => (Except.ok k, w)
  | none =>
    match w.secGetErr with
    | some msg => (Except.error ("Error getting encryption key " ++ msg), w)
    | none =>
      match lookup w.secrets encryptionKeyName with
      | some s =>
        if s = "" then genNewKey w
        else (Except.ok s, { w with cache := some s })
      | none => genNewKey w

/-- `pathForKey(key)` from the source. -/
def pathForKey (baseFolder key : String) : String :=
  resolvePath [baseFolder, encodeURIComponent key]

/-- The `baseFolder` computed by the `FSStorage` constructor. -/
def mkBaseFolder (location folder : String) : String :=
  resolvePath [location, folder]

/-- `setItem(key, value)` (inner async function, before the
callback/promise adapter): ensure the base folder, obtain the key,
encrypt, write; any failure is wrapped as `Error setting item: <msg>`. -/
def setItem (C : Cipher) (baseFolder key value : String) (w : World) :
    Except String Unit × World :=
  match getEncryptionKey (if pathExists w baseFolder then w else makeDirectoryAsync w baseFolder) with
  | (Except.error msg, w2) => (Except.error ("Error setting item: " ++ msg), w2)
  | (Except.ok k, w2) =>
    match writeAsStringAsync w2 (pathForKey baseFolder key) (C.enc value k) with
    | Except.error msg => (Except.error ("Error setting item: " ++ msg), w2)
    | Except.ok w3 => (Except.ok (), w3)

/-- `getItem(key)` (inner async function): `none` models the implicit
`undefined` of the not-found branch; decryption-stage failures are
wrapped as `Could not decrypt state: <msg>` and every failure under the
outer try is re-wrapped as `Error getting item: <msg>`. -/
def getItem (C : Cipher) (baseFolder key : String) (w : World) :
    Except String (Option String) × World :=
  if pathExists w (pathForKey baseFolder key) then
    match readAsStringAsync w (pathForKey baseFolder key) with
    | Except.error msg => (Except.error ("Error getting item: " ++ msg), w)
    | Except.ok encVal =>
      match getEncryptionKey w with
      | (Except.error msg, w1) =>
        (Except.error ("Error getting item: Could not decrypt state: " ++ msg), w1)
      | (Except.ok k, w1) =>
        match C.dec encVal k with
        | Except.error msg =>
          (Except.error ("Error getting item: Could not decrypt state: " ++ msg), w1)
        | Except.ok s => (Except.ok (some s), w1)
  else (Except.ok none, w)

/-- `removeItem(key)` (inner async function): an idempotent delete. -/
def removeItem (baseFolder key : String) (w : World) : Except String Unit × World :=
  (Except.ok (), deleteAsync w (pathForKey baseFolder key))

/-- `decodeURIComponent` mapped over the listed names; `none` when any
name is malformed (the map in the source would throw). -/
def decodeAll : List String → Option (List String)
  | [] => some []
  | n :: rest =>
    match decodeURIComponent n, decodeAll rest with
    | some k, some ks => some (k :: ks)
    | _, _ => none

/-- `getAllKeys()` (inner async function): ensure the base folder, list
it, percent-decode every name. -/
def getAllKeys (baseFolder : String) (w : World) : Except String (List String) × World :=
  match readDirectoryAsync (makeDirectoryAsync w baseFolder) baseFolder with
  | Except.error msg => (Except.error msg, makeDirectoryAsync w baseFolder)
  | Except.ok names =>
    match decodeAll names with
    | some ks => (Except.ok ks, makeDirectoryAsync w baseFolder)
    | none => (Except.error "URIError: URI malformed", makeDirectoryAsync w baseFolder)

/-! ## The callback/promise adapter -/

/-- One invocation of the user-supplied callback. -/
inductive CallbackEvent (α : Type) where
  | success : α → CallbackEvent α
  | failure : String → CallbackEvent α
deriving DecidableEq, Repr

/-- `withCallback(callback, func)` from the source, applied to the
outcome of `func()`: the first component is how the returned promise
settles (`Except.error` = rejection; a swallowed error resolves with
`undefined`, i.e. `none`), the second lists the callback invocations. -/
def withCallback {α : Type} (hasCallback : Bool) (outcome : Except String α) :
    Except String (Option α) × List (CallbackEvent α) :=
  match outcome with
  | Except.ok a => (Except.ok (some a), if hasCallback then [CallbackEvent.success a] else [])
  | Except.error e =>
    if hasCallback then (Except.ok none, [CallbackEvent.failure e])
    else (Except.error e, [])

/-- A normalized base folder: splitting on `/` yields only segments that
the resolver keeps (non-empty, not `"."`).  The constructor's
`baseFolder` satisfies this. -/
def NoDrop (b : String) : Prop := ∀ s ∈ splitSlash b.data, keepSeg s = true

instance (b : String) : Decidable (NoDrop b) :=
  inferInstanceAs (Decidable (∀ s ∈ splitSlash b.data, keepSeg s = true))

/-- The tokens the decoder sees for one encoded character. -/
def tokChar (c : Char) : List (Sum Nat Char) :=
  if uriUnreserved c then [Sum.inr c] else (utf8Bytes c).map Sum.inl

/-! ## Concrete instances used to exercise the theorems -/

/-- A cipher whose decryption trivially inverts encryption. -/
def idCipher : Cipher := { enc := fun v _ => v, dec := fun c _ => Except.ok c }

/-- A cipher whose decryption always fails (wrong or rotated key). -/
def badCipher : Cipher := { enc := fun v _ => v, dec := fun _ _ => Except.error "bad key" }

/-- A fresh installation: nothing on disk, nothing in the secure store. -/
def emptyWorld : World :=
  { files := [], dirs := [], secrets := [], cache := none,
    nextUuid := "11111111-2222-4333-8444-555555555555",
    secGetErr := none, secSetErr := none }

/-- The base folder of a handle built from location `docs` and the
default folder name. -/
def demoBase : String := mkBaseFolder "docs" "reduxPersist"

/-- A world whose secure store already holds a key. -/
def storedKeyWorld : World :=
  { emptyWorld with secrets := [(encryptionKeyName, "stored-key")] }

/-- A world with a cached key and a broken secure store: reads would
fail if attempted. -/
def cachedWorld : World :=
  { emptyWorld with cache := some "k0", secGetErr := some "secure store down" }

/-- A world where reading the secure store fails. -/
def getFailWorld : World := { emptyWorld with secGetErr := some "keychain unavailable" }

/-- A world where writing the secure store fails. -/
def setFailWorld : World := { emptyWorld with secSetErr := some "keychain write denied" }

/-- A world whose secure store holds the empty string under the key
slot: a present but falsy value. -/
def cexWorld : World := { emptyWorld with secrets := [(encryptionKeyName, "")] }

/-- A world holding one stored entry that the current key cannot
decrypt. -/
def staleWorld : World :=
  { emptyWorld with
      files := [("docs/reduxPersist/count", "junk")],
      dirs := ["docs/reduxPersist"],
      cache := some "k0" }

/-! ## Lemmas about the path resolver -/

theorem splitSlash_ne_nil (l : List Char) : splitSlash l ≠ [] := by
  cases l with
  | nil => simp [splitSlash]
  | cons c r =>
    by_cases hc : c = '/'
    · simp [splitSlash, hc]
    · cases h : splitSlash r with
      | nil => simp [splitSlash, hc, h]
      | cons s ss => simp [splitSlash, hc, h]

theorem splitSlash_cons_of_ne (c : Char) (r : List Char) (hc : c ≠ '/')
    (s : List Char) (ss : List (List Char)) (h : splitSlash r = s :: ss) :
    splitSlash (c :: r) = (c :: s) :: ss := by
  simp [splitSlash, hc, h]

theorem joinSlash_cons_cons (c : Char) (s : List Char) (ss : List (List Char)) :
    joinSlash ((c :: s) :: ss) = c :: joinSlash (s :: ss) := by
  cases ss <;> simp [joinSlash]

theorem joinSlash_splitSlash (l : List Char) : joinSlash (splitSlash l) = l := by
  induction l with
  | nil => rfl
  | cons c r ih =>
    cases hs : splitSlash r with
    | nil => exact absurd hs (splitSlash_ne_nil r)
    | cons s ss =>
      rw [hs] at ih
      by_cases hc : c = '/'
      · subst hc
        rw [show splitSlash ('/' :: r) = [] :: s :: ss from by simp [splitSlash, hs]]
        rw [show joinSlash ([] :: s :: ss) = '/' :: joinSlash (s :: ss) from rfl, ih]
      · rw [splitSlash_cons_of_ne c r hc s ss hs, joinSlash_cons_cons, ih]

theorem splitSlash_append_slash (a b : List Char) :
    splitSlash (a ++ '/' :: b) = splitSlash a ++ splitSlash b := by
  induction a with
  | nil => simp [splitSlash]
  | cons c a' ih =>
    cases hs : splitSlash a' with
    | nil => exact absurd hs (splitSlash_ne_nil a')
    | cons s ss =>
      by_cases hc : c = '/'
      · subst hc
        rw [List.cons_append,
          show splitSlash ('/' :: (a' ++ '/' :: b)) = [] :: splitSlash (a' ++ '/' :: b) from by
            simp [splitSlash],
          ih,
          show splitSlash ('/' :: a') = [] :: splitSlash a' from by simp [splitSlash]]
        rfl
      · have h2 : splitSlash (a' ++ '/' :: b) = s :: (ss ++ splitSlash b) := by
          rw [ih, hs]; rfl
        rw [List.cons_append, splitSlash_cons_of_ne c _ hc s (ss ++ splitSlash b) h2,
          splitSlash_cons_of_ne c a' hc s ss hs]
        rfl

theorem not_slash_mem_splitSlash (l : List Char) :
    ∀ s ∈ splitSlash l, '/' ∉ s := by
  induction l with
  | nil =>
    intro s hs
    simp [splitSlash] at hs
    simp [hs]
  | cons c r ih =>
    intro s hs
    cases hr : splitSlash r with
    | nil => exact absurd hr (splitSlash_ne_nil r)
    | cons t ts =>
      rw [hr] at ih
      by_cases hc : c = '/'
      · subst hc
        rw [show splitSlash ('/' :: r) = [] :: t :: ts from by simp [splitSlash, hr]] at hs
        rcases List.mem_cons.mp hs with rfl | hs'
        · simp
        · exact ih s hs'
      · rw [splitSlash_cons_of_ne c r hc t ts hr] at hs
        rcases List.mem_cons.mp hs with rfl | hs'
        · intro hmem
          rcases List.mem_cons.mp hmem with h | h
          · exact hc h.symm
          · exact ih t (List.mem_cons_self t ts) h
        · exact ih s (List.mem_cons_of_mem t hs')

theorem splitSlash_of_no_slash (l : List Char) (h : '/' ∉ l) : splitSlash l = [l] := by
  induction l with
  | nil => rfl
  | cons c r ih =>
    have hc : c ≠ '/' := fun he => h (he ▸ List.mem_cons_self c r)
    have hr : '/' ∉ r := fun hm => h (List.mem_cons_of_mem c hm)
    rw [splitSlash_cons_of_ne c r hc r [] (ih hr)]

theorem joinSlash_append (l₁ l₂ : List (List Char)) (h₁ : l₁ ≠ []) (h₂ : l₂ ≠ []) :
    joinSlash (l₁ ++ l₂) = joinSlash l₁ ++ '/' :: joinSlash l₂ := by
  induction l₁ with
  | nil => exact absurd rfl h₁
  | cons s ss ih =>
    cases ss with
    | nil =>
      cases l₂ with
      | nil => exact absurd rfl h₂
      | cons t ts => simp [joinSlash]
    | cons s2 ss2 =>
      rw [List.cons_append,
        show joinSlash (s :: ((s2 :: ss2) ++ l₂)) = s ++ '/' :: joinSlash ((s2 :: ss2) ++ l₂) from by
          rw [List.cons_append]; rfl,
        ih (List.cons_ne_nil s2 ss2),
        show joinSlash (s :: s2 :: ss2) = s ++ '/' :: joinSlash (s2 :: ss2) from rfl]
      simp

theorem splitSlash_joinSlash_flat (ls : List (List Char)) (h : ls ≠ []) :
    splitSlash (joinSlash ls) = ls.flatMap splitSlash := by
  induction ls with
  | nil => exact absurd rfl h
  | cons x xs ih =>
    cases xs with
    | nil => simp [joinSlash]
    | cons y ys =>
      rw [show joinSlash (x :: y :: ys) = x ++ '/' :: joinSlash (y :: ys) from rfl,
        splitSlash_append_slash, ih (List.cons_ne_nil y ys)]
      simp

theorem resolveChars_flat (ls : List (List Char)) :
    resolveChars ls = joinSlash ((ls.flatMap splitSlash).filter keepSeg) := by
  cases ls with
  | nil =>
    show joinSlash ((splitSlash (joinSlash [])).filter keepSeg) = _
    rw [show joinSlash ([] : List (List Char)) = [] from rfl,
      show splitSlash ([] : List Char) = [[]] from rfl]
    rfl
  | cons x xs =>
    show joinSlash ((splitSlash (joinSlash (x :: xs))).filter keepSeg) = _
    rw [splitSlash_joinSlash_flat (x :: xs) (List.cons_ne_nil x xs)]

theorem keepSeg_false_iff (s : List Char) : keepSeg s = false ↔ s = [] ∨ s = ['.'] := by
  simp [keepSeg, List.isEmpty_iff]
  tauto

theorem keepSeg_true_iff (s : List Char) : keepSeg s = true ↔ s ≠ [] ∧ s ≠ ['.'] := by
  simp [keepSeg, List.isEmpty_iff]

theorem string_mk_data (s : String) : String.mk s.data = s := by cases s; rfl

theorem data_append (a b : String) : (a ++ b).data = a.data ++ b.data := by
  cases a; cases b; rfl

/-- Joining a normalized base with a kept, separator-free segment. -/
theorem resolvePath_pair (b e : String) (hb : NoDrop b)
    (he : keepSeg e.data = true) (hslash : '/' ∉ e.data) :
    resolvePath [b, e] = b ++ "/" ++ e := by
  have hflat : resolveChars [b.data, e.data] =
      joinSlash ((splitSlash b.data ++ splitSlash e.data).filter keepSeg) := by
    rw [resolveChars_flat]
    simp
  rw [resolvePath, show [b, e].map String.data = [b.data, e.data] from rfl, hflat,
    splitSlash_of_no_slash e.data hslash, List.filter_append,
    List.filter_eq_self.mpr (fun s hs => hb s hs),
    show List.filter keepSeg [e.data] = [e.data] from by simp [he],
    joinSlash_append (splitSlash b.data) [e.data] (splitSlash_ne_nil b.data)
      (List.cons_ne_nil e.data []),
    joinSlash_splitSlash, show joinSlash [e.data] = e.data from rfl]
  have hdata : (b ++ "/" ++ e).data = b.data ++ '/' :: e.data := by
    rw [data_append, data_append, show "/".data = ['/'] from rfl, List.append_assoc]
    rfl
  rw [← hdata, string_mk_data]

/-- Joining a normalized base with a dropped segment (empty or `"."`)
collapses to the base itself. -/
theorem resolvePath_dropSeg (b e : String) (hb : NoDrop b)
    (he : keepSeg e.data = false) :
    resolvePath [b, e] = b := by
  have hsingle : splitSlash e.data = [e.data] := by
    rcases (keepSeg_false_iff e.data).mp he with h | h <;> rw [h] <;> rfl
  have hflat : resolveChars [b.data, e.data] =
      joinSlash ((splitSlash b.data ++ splitSlash e.data).filter keepSeg) := by
    rw [resolveChars_flat]
    simp
  rw [resolvePath, show [b, e].map String.data = [b.data, e.data] from rfl, hflat,
    hsingle, List.filter_append,
    List.filter_eq_self.mpr (fun s hs => hb s hs),
    show List.filter keepSeg [e.data] = [] from by simp [he],
    List.append_nil, joinSlash_splitSlash, string_mk_data]

/-! ## Lemmas about percent-encoding: decoding inverts encoding -/

theorem charValid (c : Char) :
    c.toNat < 0xD800 ∨ (0xDFFF < c.toNat ∧ c.toNat < 0x110000) := c.valid

theorem uriUnreserved_bounds (c : Char) (h : uriUnreserved c = true) :
    c.toNat ≠ 37 ∧ c.toNat ≠ 47 := by
  simp only [uriUnreserved, Bool.or_eq_true, Bool.and_eq_true, decide_eq_true_eq,
    beq_iff_eq] at h
  omega

theorem uriUnreserved_ne_pct (c : Char) (h : uriUnreserved c = true) : c ≠ '%' := by
  intro he
  exact (uriUnreserved_bounds c h).1 (by rw [he]; rfl)

theorem uriUnreserved_ne_slash (c : Char) (h : uriUnreserved c = true) : c ≠ '/' := by
  intro he
  exact (uriUnreserved_bounds c h).2 (by rw [he]; rfl)

theorem hexVal_hexDigit : ∀ n, n < 16 → hexVal (hexDigit n) = some n := by decide

theorem hexDigit_ne_slash : ∀ n, n < 16 → hexDigit n ≠ '/' := by decide

theorem utf8Bytes_lt (c : Char) : ∀ b ∈ utf8Bytes c, b < 256 := by
  intro b hb
  have hv : c.toNat < 0x110000 := by
    rcases charValid c with h | h <;> omega
  unfold utf8Bytes at hb
  split at hb
  · simp at hb
    omega
  · split at hb
    · simp at hb
      rcases hb with rfl | rfl <;> omega
    · split at hb
      · simp at hb
        rcases hb with rfl | rfl | rfl <;> omega
      · simp at hb
        rcases hb with rfl | rfl | rfl | rfl <;> omega

/-- The tokens the decoder sees for one encoded character. -/
theorem tokens_cons_ne (c : Char) (r : List Char) (hc : c ≠ '%') :
    tokens (c :: r) = (tokens r).map (fun ts => Sum.inr c :: ts) := by
  cases r with
  | nil => rw [tokens.eq_3 c [] (by intro a b r2 he; cases he), if_neg hc]
  | cons h t =>
    cases t with
    | nil => rw [tokens.eq_3 c [h] (by intro a b r2 he; simp at he), if_neg hc]
    | cons l r2 => rw [tokens.eq_2, if_neg hc]

theorem tokens_pct (b : Nat) (hb : b < 256) (r : List Char) :
    tokens (pctByte b ++ r) = (tokens r).map (fun ts => Sum.inl b :: ts) := by
  have h1 : hexVal (hexDigit (b / 16)) = some (b / 16) := hexVal_hexDigit _ (by omega)
  have h2 : hexVal (hexDigit (b % 16)) = some (b % 16) := hexVal_hexDigit _ (by omega)
  show tokens ('%' :: hexDigit (b / 16) :: hexDigit (b % 16) :: r) = _
  rw [tokens.eq_2, if_pos rfl, h1, h2]
  show (tokens r).map (fun ts => Sum.inl (b / 16 * 16 + b % 16) :: ts) = _
  simp only [show b / 16 * 16 + b % 16 = b from by omega]

theorem tokens_flatpct (bs : List Nat) (h : ∀ b ∈ bs, b < 256) (r : List Char) :
    tokens (bs.flatMap pctByte ++ r) = (tokens r).map (fun ts => bs.map Sum.inl ++ ts) := by
  induction bs with
  | nil => simp
  | cons b bs' ih =>
    rw [List.flatMap_cons, List.append_assoc,
      tokens_pct b (h b (List.mem_cons_self b bs')) _,
      ih (fun x hx => h x (List.mem_cons_of_mem b hx))]
    simp [Option.map_map]
    rfl

theorem tokens_encChar_cons (c : Char) (r : List Char) :
    tokens (encChar c ++ r) = (tokens r).map (fun ts => tokChar c ++ ts) := by
  by_cases h : uriUnreserved c
  · have hc : c ≠ '%' := uriUnreserved_ne_pct c h
    rw [encChar, if_pos h, tokChar, if_pos h]
    show tokens (c :: r) = _
    rw [tokens_cons_ne c r hc]
    rfl
  · rw [encChar, if_neg h, tokChar, if_neg h]
    exact tokens_flatpct _ (utf8Bytes_lt c) r

theorem tokens_encList (l : List Char) :
    tokens (encList l) = some (l.flatMap tokChar) := by
  induction l with
  | nil => rfl
  | cons c l' ih =>
    rw [show encList (c :: l') = encChar c ++ encList l' from rfl,
      tokens_encChar_cons, ih, List.flatMap_cons]
    rfl

theorem decLoop_lit (c : Char) (ts : List (Sum Nat Char)) :
    decLoop DecState.clean (Sum.inr c :: ts) =
      (decLoop DecState.clean ts).map (fun cs => c :: cs) := rfl

theorem decLoop_b1 (b : Nat) (h : b < 0x80) (ts : List (Sum Nat Char)) :
    decLoop DecState.clean (Sum.inl b :: ts) =
      (decLoop DecState.clean ts).map (fun cs => Char.ofNat b :: cs) := by
  rw [decLoop, if_pos h]

theorem decLoop_lead2 (b : Nat) (h1 : 0xC0 ≤ b) (h2 : b < 0xE0) (ts : List (Sum Nat Char)) :
    decLoop DecState.clean (Sum.inl b :: ts) =
      decLoop (DecState.pending 1 0x80 (b - 0xC0)) ts := by
  rw [decLoop, if_neg (by omega : ¬ b < 0x80), if_neg (by omega : ¬ b < 0xC0), if_pos h2]

theorem decLoop_lead3 (b : Nat) (h1 : 0xE0 ≤ b) (h2 : b < 0xF0) (ts : List (Sum Nat Char)) :
    decLoop DecState.clean (Sum.inl b :: ts) =
      decLoop (DecState.pending 2 0x800 (b - 0xE0)) ts := by
  rw [decLoop, if_neg (by omega : ¬ b < 0x80), if_neg (by omega : ¬ b < 0xC0),
    if_neg (by omega : ¬ b < 0xE0), if_pos h2]

theorem decLoop_lead4 (b : Nat) (h1 : 0xF0 ≤ b) (h2 : b < 0xF8) (ts : List (Sum Nat Char)) :
    decLoop DecState.clean (Sum.inl b :: ts) =
      decLoop (DecState.pending 3 0x10000 (b - 0xF0)) ts := by
  rw [decLoop, if_neg (by omega : ¬ b < 0x80), if_neg (by omega : ¬ b < 0xC0),
    if_neg (by omega : ¬ b < 0xE0), if_neg (by omega : ¬ b < 0xF0), if_pos h2]

theorem decLoop_cont_more (needed minCode acc b : Nat) (ts : List (Sum Nat Char))
    (h3 : 0x80 ≤ b) (h4 : b < 0xC0) (hn : needed ≠ 1) :
    decLoop (DecState.pending needed minCode acc) (Sum.inl b :: ts) =
      decLoop (DecState.pending (needed - 1) minCode (acc * 64 + (b - 0x80))) ts := by
  rw [decLoop, if_pos ⟨h3, h4⟩, if_neg hn]

theorem decLoop_cont_done (minCode acc b : Nat) (ts : List (Sum Nat Char))
    (h3 : 0x80 ≤ b) (h4 : b < 0xC0)
    (h5 : minCode ≤ acc * 64 + (b - 0x80) ∧ acc * 64 + (b - 0x80) < 0x110000 ∧
          ¬(0xD800 ≤ acc * 64 + (b - 0x80) ∧ acc * 64 + (b - 0x80) < 0xE000)) :
    decLoop (DecState.pending 1 minCode acc) (Sum.inl b :: ts) =
      (decLoop DecState.clean ts).map (fun cs => Char.ofNat (acc * 64 + (b - 0x80)) :: cs) := by
  rw [decLoop, if_pos ⟨h3, h4⟩, if_pos rfl, if_pos h5]

theorem decLoop_tokChar (c : Char) (ts : List (Sum Nat Char)) :
    decLoop DecState.clean (tokChar c ++ ts) =
      (decLoop DecState.clean ts).map (fun cs => c :: cs) := by
  by_cases h : uriUnreserved c
  · rw [tokChar, if_pos h]
    exact decLoop_lit c ts
  · rw [tokChar, if_neg h]
    have hv := charValid c
    by_cases r1 : c.toNat < 0x80
    · rw [show (utf8Bytes c).map Sum.inl = [Sum.inl c.toNat] from by
        simp [utf8Bytes, r1]]
      rw [List.cons_append, List.nil_append, decLoop_b1 _ r1, Char.ofNat_toNat]
    · by_cases r2 : c.toNat < 0x800
      · rw [show (utf8Bytes c).map Sum.inl =
            [Sum.inl (0xC0 + c.toNat / 64), Sum.inl (0x80 + c.toNat % 64)] from by
          simp [utf8Bytes, r1, r2]]
        rw [List.cons_append, List.cons_append, List.nil_append,
          decLoop_lead2 _ (by omega) (by omega),
          decLoop_cont_done _ _ _ ts (by omega) (by omega) (by constructor <;> omega)]
        simp only [show (0xC0 + c.toNat / 64 - 0xC0) * 64 + (0x80 + c.toNat % 64 - 0x80) = c.toNat
          from by omega, Char.ofNat_toNat]
      · by_cases r3 : c.toNat < 0x10000
        · have hsur : ¬(0xD800 ≤ c.toNat ∧ c.toNat < 0xE000) := by
            rcases hv with h1 | h1 <;> omega
          rw [show (utf8Bytes c).map Sum.inl =
              [Sum.inl (0xE0 + c.toNat / 4096), Sum.inl (0x80 + c.toNat / 64 % 64),
               Sum.inl (0x80 + c.toNat % 64)] from by
            simp [utf8Bytes, r1, r2, r3]]
          rw [List.cons_append, List.cons_append, List.cons_append, List.nil_append,
            decLoop_lead3 _ (by omega) (by omega),
            decLoop_cont_more _ _ _ _ _ (by omega) (by omega) (by omega),
            decLoop_cont_done _ _ _ ts (by omega) (by omega) (by
              refine ⟨by omega, by omega, ?_⟩
              intro hcon
              exact hsur (by constructor <;> omega))]
          simp only [show ((0xE0 + c.toNat / 4096 - 0xE0) * 64 +
              (0x80 + c.toNat / 64 % 64 - 0x80)) * 64 + (0x80 + c.toNat % 64 - 0x80) = c.toNat
            from by omega, Char.ofNat_toNat]
        · have hlt : c.toNat < 0x110000 := by rcases hv with h1 | h1 <;> omega
          rw [show (utf8Bytes c).map Sum.inl =
              [Sum.inl (0xF0 + c.toNat / 262144), Sum.inl (0x80 + c.toNat / 4096 % 64),
               Sum.inl (0x80 + c.toNat / 64 % 64), Sum.inl (0x80 + c.toNat % 64)] from by
            simp [utf8Bytes, r1, r2, r3]]
          rw [List.cons_append, List.cons_append, List.cons_append, List.cons_append,
            List.nil_append,
            decLoop_lead4 _ (by omega) (by omega),
            decLoop_cont_more _ _ _ _ _ (by omega) (by omega) (by omega),
            decLoop_cont_more _ _ _ _ _ (by omega) (by omega) (by omega),
            decLoop_cont_done _ _ _ ts (by omega) (by omega) (by
              refine ⟨by omega, by omega, ?_⟩
              intro hcon
              omega)]
          simp only [show (((0xF0 + c.toNat / 262144 - 0xF0) * 64 +
              (0x80 + c.toNat / 4096 % 64 - 0x80)) * 64 +
              (0x80 + c.toNat / 64 % 64 - 0x80)) * 64 + (0x80 + c.toNat % 64 - 0x80) = c.toNat
            from by omega, Char.ofNat_toNat]

theorem decLoop_flat_tokChar (l : List Char) :
    decLoop DecState.clean (l.flatMap tokChar) = some l := by
  induction l with
  | nil => rfl
  | cons c l' ih =>
    rw [List.flatMap_cons, decLoop_tokChar, ih]
    rfl

/-- `decodeURIComponent` inverts `encodeURIComponent`. -/
theorem decode_encode (s : String) :
    decodeURIComponent (encodeURIComponent s) = some s := by
  rw [decodeURIComponent, encodeURIComponent,
    show (String.mk (encList s.data)).data = encList s.data from rfl, tokens_encList,
    show (match (some (s.data.flatMap tokChar) : Option (List (Sum Nat Char))) with
      | none => (none : Option String)
      | some ts => (decLoop DecState.clean ts).map String.mk) =
        (decLoop DecState.clean (s.data.flatMap tokChar)).map String.mk from rfl,
    decLoop_flat_tokChar]
  rw [show (some s.data).map String.mk = some (String.mk s.data) from rfl, string_mk_data]

/-- The encoding of a key never contains the path separator. -/
theorem encList_no_slash (l : List Char) : '/' ∉ encList l := by
  intro hmem
  rw [encList] at hmem
  rcases List.mem_flatMap.mp hmem with ⟨c, _, hc⟩
  rw [encChar] at hc
  split at hc
  · rename_i h
    rcases List.mem_singleton.mp hc with rfl
    exact uriUnreserved_ne_slash _ h rfl
  · rcases List.mem_flatMap.mp hc with ⟨b, hb, hpct⟩
    have hb256 := utf8Bytes_lt _ _ hb
    simp only [pctByte, List.mem_cons, List.not_mem_nil, or_false] at hpct
    rcases hpct with h | h | h
    · exact absurd h (by decide)
    · exact hexDigit_ne_slash (b / 16) (by omega) h.symm
    · exact hexDigit_ne_slash (b % 16) (by omega) h.symm

/-! ## Lemmas about the world operations -/

theorem lookup_setAssoc_self (l : List (String × String)) (k v : String) :
    lookup (setAssoc l k v) k = some v := by
  induction l with
  | nil => simp [setAssoc, lookup]
  | cons p rest ih =>
    obtain ⟨k', v'⟩ := p
    by_cases h : k' = k
    · simp [setAssoc, h, lookup]
    · simp [setAssoc, h, lookup, ih]

theorem mem_setAssoc (l : List (String × String)) (k v : String) :
    ∀ x ∈ setAssoc l k v, x = (k, v) ∨ x ∈ l := by
  induction l with
  | nil =>
    intro x hx
    simp [setAssoc] at hx
    simp [hx]
  | cons p rest ih =>
    obtain ⟨k', v'⟩ := p
    intro x hx
    by_cases h : k' = k
    · rw [setAssoc, if_pos h] at hx
      rcases List.mem_cons.mp hx with rfl | hx'
      · exact Or.inl rfl
      · exact Or.inr (List.mem_cons_of_mem _ hx')
    · rw [setAssoc, if_neg h] at hx
      rcases List.mem_cons.mp hx with rfl | hx'
      · exact Or.inr (List.mem_cons_self _ _)
      · rcases ih x hx' with h1 | h1
        · exact Or.inl h1
        · exact Or.inr (List.mem_cons_of_mem _ h1)

theorem lookup_mem (l : List (String × String)) (k v : String)
    (h : lookup l k = some v) : (k, v) ∈ l := by
  induction l with
  | nil => simp [lookup] at h
  | cons p rest ih =>
    obtain ⟨k', v'⟩ := p
    by_cases hk : k' = k
    · rw [lookup, if_pos hk] at h
      injection h with h
      subst hk
      subst h
      exact List.mem_cons_self _ _
    · rw [lookup, if_neg hk] at h
      exact List.mem_cons_of_mem _ (ih h)

/-- `getEncryptionKey` touches only the secret store and the cache. -/
theorem getEncryptionKey_preserves (w : World) :
    (getEncryptionKey w).2.files = w.files ∧ (getEncryptionKey w).2.dirs = w.dirs ∧
    (getEncryptionKey w).2.nextUuid = w.nextUuid ∧
    (getEncryptionKey w).2.secGetErr = w.secGetErr ∧
    (getEncryptionKey w).2.secSetErr = w.secSetErr := by
  unfold getEncryptionKey genNewKey
  split
  · exact ⟨rfl, rfl, rfl, rfl, rfl⟩
  · split
    · exact ⟨rfl, rfl, rfl, rfl, rfl⟩
    · split
      · split
        · split
          · exact ⟨rfl, rfl, rfl, rfl, rfl⟩
          · exact ⟨rfl, rfl, rfl, rfl, rfl⟩
        · exact ⟨rfl, rfl, rfl, rfl, rfl⟩
      · split
        · exact ⟨rfl, rfl, rfl, rfl, rfl⟩
        · exact ⟨rfl, rfl, rfl, rfl, rfl⟩

/-- After a successful `getEncryptionKey` the returned key is cached. -/
theorem getEncryptionKey_cache_ok (w : World) (k : String) (w1 : World)
    (h : getEncryptionKey w = (Except.ok k, w1)) : w1.cache = some k := by
  unfold getEncryptionKey genNewKey at h
  split at h
  · rename_i k0 hk0
    injection h with h1 h2
    injection h1 with h1
    subst h1
    subst h2
    exact hk0
  · split at h
    · injection h with h1 h2
      cases h1
    · split at h
      · split at h
        · split at h
          · injection h with h1 h2
            cases h1
          · injection h with h1 h2
            injection h1 with h1
            subst h1
            subst h2
            rfl
        · injection h with h1 h2
          injection h1 with h1
          subst h1
          subst h2
          rfl
      · split at h
        · injection h with h1 h2
          cases h1
        · injection h with h1 h2
          injection h1 with h1
          subst h1
          subst h2
          rfl

/-- Inversion of a successful `setItem`: the base folder is ensured, the
key is obtained and cached, the encrypted value is written at
`pathForKey`. -/
theorem setItem_ok_inv (C : Cipher) (base key value : String) (w w' : World)
    (h : setItem C base key value w = (Except.ok (), w')) :
    ∃ k w2,
      getEncryptionKey (if pathExists w base then w else makeDirectoryAsync w base) =
        (Except.ok k, w2) ∧
      (w2.dirs.contains (pathForKey base key)) = false ∧
      w' = { w2 with files := setAssoc w2.files (pathForKey base key) (C.enc value k) } := by
  unfold setItem at h
  split at h
  · cases h
  · rename_i k w2 hkey
    split at h
    · cases h
    · rename_i w3 hw3
      unfold writeAsStringAsync at hw3
      split at hw3
      · cases hw3
      · rename_i hdir
        injection h with h1 h2
        injection hw3 with hw3
        refine ⟨k, w2, hkey, ?_, ?_⟩
        · simp only [Bool.not_eq_true] at hdir
          exact hdir
        · rw [← h2, ← hw3]

theorem filter_self_idem {α : Type} (q : α → Bool) (l : List α) :
    (l.filter q).filter q = l.filter q := by
  induction l with
  | nil => rfl
  | cons a l' ih =>
    by_cases h : q a = true
    · simp [List.filter_cons, h, ih]
    · simp [List.filter_cons, h, ih]

theorem mem_contains {α : Type} [BEq α] [LawfulBEq α] (l : List α) (p : α) (h : p ∈ l) :
    l.contains p = true := by
  induction l with
  | nil => cases h
  | cons d l' ih =>
    rcases List.mem_cons.mp h with rfl | h'
    · simp [List.contains_cons]
    · simp only [List.contains_cons, ih h', Bool.or_true]

theorem contains_mem {α : Type} [BEq α] [LawfulBEq α] (l : List α) (p : α)
    (h : l.contains p = true) : p ∈ l := by
  induction l with
  | nil => cases h
  | cons d l' ih =>
    rw [List.contains_cons] at h
    rcases Bool.or_eq_true_iff.mp h with h1 | h1
    · rw [eq_of_beq h1]
      exact List.mem_cons_self d l'
    · exact List.mem_cons_of_mem d (ih h1)

theorem contains_eq_false_of_not_mem {α : Type} [BEq α] [LawfulBEq α] (l : List α) (a : α)
    (h : a ∉ l) : l.contains a = false := by
  induction l with
  | nil => rfl
  | cons d l' ih =>
    rw [List.contains_cons]
    have h1 : a ≠ d := fun he => h (he ▸ List.mem_cons_self d l')
    have h2 : a ∉ l' := fun hm => h (List.mem_cons_of_mem d hm)
    rw [ih h2]
    simp [h1]

theorem contains_filter_self (l : List String) (p : String) :
    (l.filter (fun d => !(d == p || underPath p d))).contains p = false := by
  induction l with
  | nil => rfl
  | cons d l' ih =>
    rw [List.filter_cons]
    by_cases h : d = p
    · rw [if_neg (by subst h; simp)]
      exact ih
    · by_cases hu : underPath p d = true
      · rw [if_neg (by simp [hu])]
        exact ih
      · have hu' : underPath p d = false := by simpa using hu
        rw [if_pos (by simp [h, hu'])]
        simp only [List.contains_cons, ih, Bool.or_false]
        simp [Ne.symm h]

theorem lookup_filter_self (l : List (String × String)) (p : String) :
    lookup (l.filter (fun f => !(f.1 == p || underPath p f.1))) p = none := by
  induction l with
  | nil => rfl
  | cons f l' ih =>
    obtain ⟨k, v⟩ := f
    rw [List.filter_cons]
    by_cases h : k = p
    · rw [if_neg (by subst h; simp)]
      exact ih
    · by_cases hu : underPath p k = true
      · rw [if_neg (by simp [hu])]
        exact ih
      · have hu' : underPath p k = false := by simpa using hu
        rw [if_pos (by simp [h, hu'])]
        rw [lookup, if_neg h]
        exact ih

/-- After deleting a path, nothing exists at it. -/
theorem pathExists_delete_self (w : World) (p : String) :
    pathExists (deleteAsync w p) p = false := by
  unfold pathExists deleteAsync
  simp only [lookup_filter_self, contains_filter_self, Option.isSome_none, Bool.or_self]

theorem mkdir_contains (w : World) (p : String) :
    (makeDirectoryAsync w p).dirs.contains p = true := by
  unfold makeDirectoryAsync
  split
  · rename_i h
    exact h
  · simp [List.contains_cons]

theorem mkdir_files (w : World) (p : String) :
    (makeDirectoryAsync w p).files = w.files := by
  unfold makeDirectoryAsync
  split <;> rfl

theorem mkdir_dirs_sub (w : World) (p : String) :
    ∀ d ∈ (makeDirectoryAsync w p).dirs, d = p ∨ d ∈ w.dirs := by
  unfold makeDirectoryAsync
  split
  · intro d hd
    exact Or.inr hd
  · intro d hd
    rcases List.mem_cons.mp hd with rfl | h'
    · exact Or.inl rfl
    · exact Or.inr h'

theorem isPrefixOf_append_self (l t : List Char) : l.isPrefixOf (l ++ t) = true := by
  induction l with
  | nil => simp [List.isPrefixOf]
  | cons c l' ih => simp [List.isPrefixOf, ih]

theorem underPath_append (base n : String) :
    underPath base ((base ++ "/") ++ n) = true := by
  unfold underPath
  rw [data_append]
  exact isPrefixOf_append_self _ _

theorem isPrefixOf_length_le (l t : List Char) (h : l.isPrefixOf t = true) :
    l.length ≤ t.length := by
  induction l generalizing t with
  | nil => simp
  | cons c l' ih =>
    cases t with
    | nil => simp [List.isPrefixOf] at h
    | cons d t' =>
      simp only [List.isPrefixOf, Bool.and_eq_true] at h
      have := ih t' h.2
      simp
      omega

theorem underPath_self (base : String) : underPath base base = false := by
  cases h : underPath base base
  · rfl
  · exfalso
    unfold underPath at h
    have hl := isPrefixOf_length_le _ _ h
    rw [data_append] at hl
    simp at hl

theorem entryName_append (base n : String) (hn : n.data.contains '/' = false) :
    entryName base ((base ++ "/") ++ n) = some n := by
  unfold entryName
  rw [if_pos (underPath_append base n),
    show ((base ++ "/") ++ n).data = (base ++ "/").data ++ n.data from data_append _ _,
    List.drop_left, hn]
  rw [if_neg (by simp), string_mk_data]

theorem entryName_not_under (base p : String) (h : underPath base p = false) :
    entryName base p = none := by
  unfold entryName
  rw [if_neg (by simp [h])]

theorem entryName_self (base : String) : entryName base base = none :=
  entryName_not_under base base (underPath_self base)

/-- The success case of `getAllKeys`: ensure the directory, list it,
decode every name. -/
theorem getAllKeys_ok (base : String) (w : World) (ks : List String)
    (hdec : decodeAll ((w.files.map (fun f => f.1) ++
        (makeDirectoryAsync w base).dirs).filterMap (entryName base)) = some ks) :
    (getAllKeys base w).1 = Except.ok ks := by
  unfold getAllKeys readDirectoryAsync
  rw [if_pos (mkdir_contains w base), mkdir_files]
  show (match decodeAll ((w.files.map (fun f : String × String => f.1) ++
      (makeDirectoryAsync w base).dirs).filterMap (entryName base)) with
    | some ks => (Except.ok ks, makeDirectoryAsync w base)
    | none => (Except.error "URIError: URI malformed", makeDirectoryAsync w base)).1 =
      Except.ok ks
  rw [hdec]

/-- Decoding a list of names that are all encodings succeeds and recovers
every encoded key. -/
theorem decodeAll_mem (names : List String)
    (h : ∀ n ∈ names, ∃ k, n = encodeURIComponent k) :
    ∃ ks, decodeAll names = some ks ∧
      ∀ k, encodeURIComponent k ∈ names → k ∈ ks := by
  induction names with
  | nil =>
    refine ⟨[], rfl, ?_⟩
    intro k hk
    cases hk
  | cons n rest ih =>
    obtain ⟨k0, hk0⟩ := h n (List.mem_cons_self n rest)
    obtain ⟨ks, hks, hmem⟩ := ih (fun x hx => h x (List.mem_cons_of_mem n hx))
    refine ⟨k0 :: ks, ?_, ?_⟩
    · rw [decodeAll, hk0, decode_encode, hks]
    · intro k hk
      rcases List.mem_cons.mp hk with heq | hmem'
      · have hsome : some k = some k0 := by
          rw [← decode_encode k, heq, hk0, decode_encode]
        injection hsome with hkk
        rw [hkk]
        exact List.mem_cons_self k0 ks
      · exact List.mem_cons_of_mem k0 (hmem k hmem')

/-! ## The claims -/

/-- C1: for every string key and value, `setItem(key, value)` followed by
`getItem(key)` — no interleaving operations, the same process-wide
encryption key, and a cipher whose decryption inverts its encryption —
returns exactly `value`. -/
theorem claim1_setItem_getItem_roundtrip (C : Cipher) (base key value : String)
    (w w' : World)
    (hC : ∀ v k, C.dec (C.enc v k) k = Except.ok v)
    (hset : setItem C base key value w = (Except.ok (), w')) :
    getItem C base key w' = (Except.ok (some value), w') := by
  obtain ⟨k, w2, hkey, hdir, hw'⟩ := setItem_ok_inv C base key value w w' hset
  have hcache : w'.cache = some k := by
    rw [hw']
    show w2.cache = some k
    exact getEncryptionKey_cache_ok _ _ _ hkey
  have hlook : lookup w'.files (pathForKey base key) = some (C.enc value k) := by
    rw [hw']
    exact lookup_setAssoc_self _ _ _
  have hex : pathExists w' (pathForKey base key) = true := by
    simp [pathExists, hlook]
  have hre : readAsStringAsync w' (pathForKey base key) = Except.ok (C.enc value k) := by
    unfold readAsStringAsync
    rw [hlook]
  have hgek : getEncryptionKey w' = (Except.ok k, w') := by
    unfold getEncryptionKey
    rw [hcache]
  unfold getItem
  rw [if_pos hex]
  simp only [hre, hgek, hC]

/-- C1 witness: storing `"1"` under `"count"` on a fresh installation and
reading it back yields `"1"`. -/
theorem claim1_witness :
    getItem idCipher demoBase "count"
        (setItem idCipher demoBase "count" "1" emptyWorld).2 =
      (Except.ok (some "1"), (setItem idCipher demoBase "count" "1" emptyWorld).2) :=
  claim1_setItem_getItem_roundtrip idCipher demoBase "count" "1" emptyWorld _
    (fun _ _ => rfl) (by decide)

/-- C2: when the file for a key exists but its content fails to decrypt
under the current encryption key, `getItem` fails with the error wrapped
as `Could not decrypt state`, itself wrapped as an `Error getting item`
error — it does not return a value. -/
theorem claim2_getItem_decrypt_failure (C : Cipher) (base key : String) (w w1 : World)
    (c k msg : String)
    (hc : lookup w.files (pathForKey base key) = some c)
    (hk : getEncryptionKey w = (Except.ok k, w1))
    (hd : C.dec c k = Except.error msg) :
    getItem C base key w =
      (Except.error ("Error getting item: Could not decrypt state: " ++ msg), w1) := by
  have hex : pathExists w (pathForKey base key) = true := by
    simp [pathExists, hc]
  have hre : readAsStringAsync w (pathForKey base key) = Except.ok c := by
    unfold readAsStringAsync
    rw [hc]
  unfold getItem
  rw [if_pos hex]
  simp only [hre, hk, hd]

/-- C2 witness: a stored ciphertext the current key cannot decrypt makes
`getItem` fail with the doubly wrapped message. -/
theorem claim2_witness :
    getItem badCipher demoBase "count" staleWorld =
      (Except.error "Error getting item: Could not decrypt state: bad key", staleWorld) :=
  claim2_getItem_decrypt_failure badCipher demoBase "count" staleWorld staleWorld
    "junk" "k0" "bad key" (by decide) (by decide) rfl

/-- C3: for every key whose file does not exist — never written, or
previously removed — `getItem(key)` returns `undefined` (`none`) and
does not raise an error. -/
theorem claim3_getItem_not_found (C : Cipher) (base key : String) :
    (∀ w : World, pathExists w (pathForKey base key) = false →
      getItem C base key w = (Except.ok none, w)) ∧
    (∀ w : World, getItem C base key (removeItem base key w).2 =
      (Except.ok none, (removeItem base key w).2)) := by
  have hgen : ∀ w : World, pathExists w (pathForKey base key) = false →
      getItem C base key w = (Except.ok none, w) := by
    intro w h
    unfold getItem
    rw [if_neg (by simp [h])]
  refine ⟨hgen, fun w => hgen _ ?_⟩
  exact pathExists_delete_self w (pathForKey base key)

/-- C4: with a callback, the callback fires exactly once — `(null,
result)` on success, `(error)` on failure — and the returned promise
never rejects; without a callback, the promise resolves with the result
on success and rejects with the error on failure, and no callback
fires. -/
theorem claim4_withCallback_convention {α : Type} (a : α) (e : String) :
    withCallback true (Except.ok a) = (Except.ok (some a), [CallbackEvent.success a]) ∧
    withCallback true (Except.error e : Except String α) =
      (Except.ok none, [CallbackEvent.failure e]) ∧
    withCallback false (Except.ok a) = (Except.ok (some a), []) ∧
    withCallback false (Except.error e : Except String α) = (Except.error e, []) ∧
    (∀ r : Except String α,
      (withCallback true r).2.length = 1 ∧
      (withCallback false r).2.length = 0 ∧
      ∃ res, (withCallback true r).1 = Except.ok res) := by
  refine ⟨rfl, rfl, rfl, rfl, fun r => ?_⟩
  cases r with
  | ok a => exact ⟨rfl, rfl, some a, rfl⟩
  | error e => exact ⟨rfl, rfl, none, rfl⟩

/-- C5 counterexample: with the empty string present in the secret
store's key slot, `getEncryptionKey` neither caches nor returns it — it
generates and stores a fresh uuid instead, so "if a value is present it
is cached and returned" fails as stated. -/
theorem claim5_counterexample :
    lookup cexWorld.secrets encryptionKeyName = some "" ∧
    getEncryptionKey cexWorld =
      (Except.ok "11111111-2222-4333-8444-555555555555",
       { cexWorld with
           secrets := [(encryptionKeyName, "11111111-2222-4333-8444-555555555555")],
           cache := some "11111111-2222-4333-8444-555555555555" }) ∧
    (("11111111-2222-4333-8444-555555555555" == "") = false) := by
  decide

/-- C5 (amended: a present but empty-string value is treated like an
absent one): while the cache is empty a call reads the named secret;
a non-empty stored value is cached and returned; an absent one makes the
manager write the freshly generated uuid to the store, cache it and
return it; once cached, every call returns the cached value without
consulting the store (even a broken store does not matter). -/
theorem claim5_key_manager_machine :
    (∀ (w : World) (k : String), w.cache = some k → getEncryptionKey w = (Except.ok k, w)) ∧
    (∀ (w : World) (s : String), w.cache = none → w.secGetErr = none →
      lookup w.secrets encryptionKeyName = some s → s ≠ "" →
      getEncryptionKey w = (Except.ok s, { w with cache := some s })) ∧
    (∀ w : World, w.cache = none → w.secGetErr = none → w.secSetErr = none →
      lookup w.secrets encryptionKeyName = none →
      getEncryptionKey w =
        (Except.ok w.nextUuid,
         { w with secrets := setAssoc w.secrets encryptionKeyName w.nextUuid,
                  cache := some w.nextUuid })) := by
  refine ⟨?_, ?_, ?_⟩
  · intro w k hc
    unfold getEncryptionKey
    rw [hc]
  · intro w s hc hg hs hne
    unfold getEncryptionKey
    rw [hc]
    simp only [hg, hs, hne, if_false, ite_false]
  · intro w hc hg hset hs
    unfold getEncryptionKey genNewKey
    rw [hc]
    simp only [hg, hs, hset]

/-- C5 witness: the three states of the machine exercised on concrete
worlds — a cached key is returned without touching the (broken) store, a
stored key is cached and returned, and a fresh installation generates,
persists and caches the uuid. -/
theorem claim5_witness :
    getEncryptionKey cachedWorld = (Except.ok "k0", cachedWorld) ∧
    getEncryptionKey storedKeyWorld =
      (Except.ok "stored-key", { storedKeyWorld with cache := some "stored-key" }) ∧
    getEncryptionKey emptyWorld =
      (Except.ok emptyWorld.nextUuid,
       { emptyWorld with
           secrets := setAssoc emptyWorld.secrets encryptionKeyName emptyWorld.nextUuid,
           cache := some emptyWorld.nextUuid }) :=
  ⟨claim5_key_manager_machine.1 cachedWorld "k0" rfl,
   claim5_key_manager_machine.2.1 storedKeyWorld "stored-key" rfl rfl rfl (by decide),
   claim5_key_manager_machine.2.2 emptyWorld rfl rfl rfl rfl⟩

/-- C6: a secure-store read or write failure during key initialization
surfaces as an error whose message identifies the operation as `getting
encryption key`, and the whole state — in particular the cache, still
unset — is unchanged, so the next call re-runs the full read-or-generate
sequence. -/
theorem claim6_key_failure_leaves_uninitialized :
    (∀ (w : World) (m : String), w.cache = none → w.secGetErr = some m →
      getEncryptionKey w = (Except.error ("Error getting encryption key " ++ m), w)) ∧
    (∀ (w : World) (m : String), w.cache = none → w.secGetErr = none →
      lookup w.secrets encryptionKeyName = none → w.secSetErr = some m →
      getEncryptionKey w = (Except.error ("Error getting encryption key " ++ m), w)) := by
  constructor
  · intro w m hc hg
    unfold getEncryptionKey
    rw [hc]
    simp only [hg]
  · intro w m hc hg hs hset
    unfold getEncryptionKey genNewKey
    rw [hc]
    simp only [hg, hs, hset]

/-- C6 witness: a failing read and a failing write each produce the
wrapped error and leave the world (hence the empty cache) untouched. -/
theorem claim6_witness :
    getEncryptionKey getFailWorld =
      (Except.error "Error getting encryption key keychain unavailable", getFailWorld) ∧
    getEncryptionKey setFailWorld =
      (Except.error "Error getting encryption key keychain write denied", setFailWorld) :=
  ⟨claim6_key_failure_leaves_uninitialized.1 getFailWorld "keychain unavailable" rfl rfl,
   claim6_key_failure_leaves_uninitialized.2 setFailWorld "keychain write denied"
     rfl rfl rfl rfl⟩

/-- C7: percent-encoding leaves `.` and `..` unchanged; the resolver
drops `.` as a current-directory marker, so `pathForKey(".")` is the
base folder itself — `removeItem(".")` deletes the whole base folder
(the directory and everything below it), and `setItem(".", v)` /
`getItem(".")` address the base-folder path itself through the same
`pathForKey`; `..` survives, so `pathForKey("..")` is the base folder
joined with `..`, a path pointing outside the base folder. -/
theorem claim7_dot_key_escapes_to_base (base : String) (hb : NoDrop base) :
    encodeURIComponent "." = "." ∧
    encodeURIComponent ".." = ".." ∧
    pathForKey base "." = base ∧
    pathForKey base ".." = base ++ "/" ++ ".." ∧
    (∀ w : World,
      (removeItem base "." w).1 = Except.ok () ∧
      ((removeItem base "." w).2.dirs.contains base) = false ∧
      (∀ d ∈ (removeItem base "." w).2.dirs,
        (d == base) = false ∧ underPath base d = false) ∧
      (∀ f ∈ (removeItem base "." w).2.files,
        (f.1 == base) = false ∧ underPath base f.1 = false)) := by
  have hdot : pathForKey base "." = base := by
    unfold pathForKey
    rw [show encodeURIComponent "." = "." from by decide]
    exact resolvePath_dropSeg base "." hb (by decide)
  have hdd : pathForKey base ".." = base ++ "/" ++ ".." := by
    unfold pathForKey
    rw [show encodeURIComponent ".." = ".." from by decide]
    exact resolvePath_pair base ".." hb (by decide) (by decide)
  refine ⟨by decide, by decide, hdot, hdd, fun w => ?_⟩
  have hdel : (removeItem base "." w).2 = deleteAsync w base := by
    show deleteAsync w (pathForKey base ".") = deleteAsync w base
    rw [hdot]
  refine ⟨rfl, ?_, ?_, ?_⟩
  · rw [hdel]
    exact contains_filter_self w.dirs base
  · intro d hd
    rw [hdel] at hd
    have hq := (List.mem_filter.mp hd).2
    simp only [Bool.not_eq_eq_eq_not, Bool.not_true, Bool.or_eq_false_iff] at hq
    exact hq
  · intro f hf
    rw [hdel] at hf
    have hq := (List.mem_filter.mp hf).2
    simp only [Bool.not_eq_eq_eq_not, Bool.not_true, Bool.or_eq_false_iff] at hq
    exact hq

/-- C7 witness: with the concrete base folder `docs/reduxPersist`, the
path for `"."` is the base folder itself, the path for `".."` is
`docs/reduxPersist/..`, and `removeItem(".")` deletes the base
directory. -/
theorem claim7_witness :
    pathForKey demoBase "." = demoBase ∧
    pathForKey demoBase ".." = demoBase ++ "/" ++ ".." ∧
    (removeItem demoBase "." staleWorld).1 = Except.ok () ∧
    ((removeItem demoBase "." staleWorld).2.dirs.contains demoBase) = false :=
  have h := claim7_dot_key_escapes_to_base demoBase (by decide)
  ⟨h.2.2.1, h.2.2.2.1, (h.2.2.2.2 staleWorld).1, (h.2.2.2.2 staleWorld).2.1⟩

/-- C8: the path resolver is a total function that joins the segments
with `/`, splits on `/`, keeps exactly the segments that are non-empty
and not the current-directory marker (so `..` is kept), and rejoins in
order: equivalently, it filters the concatenation of the segments of the
inputs. -/
theorem claim8_resolvePath_characterization (paths : List String) :
    resolvePath paths =
      String.mk (joinSlash (((paths.map String.data).flatMap splitSlash).filter keepSeg)) ∧
    keepSeg [] = false ∧ keepSeg ['.'] = false ∧ keepSeg ['.', '.'] = true := by
  refine ⟨?_, by decide, by decide, by decide⟩
  rw [resolvePath, resolveChars_flat]

/-- C9: `getAllKeys` first ensures the base folder exists — it succeeds
(with the empty collection) even when no item was ever stored — then
lists the base folder's immediate names and percent-decodes each one;
for every key just written by a successful `setItem`, including keys
with separators or reserved characters, a world whose entries under the
base folder were all written through `setItem`'s encoding yields a
collection containing the exact original key string. -/
theorem claim9_getAllKeys_returns_original_keys (C : Cipher) (base key value : String)
    (w w' : World)
    (hb : NoDrop base)
    (hbase_file : lookup w.files base = none)
    (hfiles : ∀ f ∈ w.files, underPath base f.1 = true →
      ∃ k', f.1 = (base ++ "/") ++ encodeURIComponent k')
    (hdirs : ∀ d ∈ w.dirs, underPath base d = false)
    (hset : setItem C base key value w = (Except.ok (), w')) :
    (∀ w0 : World, (∀ f ∈ w0.files, underPath base f.1 = false) →
      (∀ d ∈ w0.dirs, underPath base d = false) →
      (getAllKeys base w0).1 = Except.ok []) ∧
    ∃ ks, (getAllKeys base w').1 = Except.ok ks ∧ key ∈ ks := by
  constructor
  · intro w0 h1 h2
    have hnil : ((w0.files.map (fun f => f.1) ++
        (makeDirectoryAsync w0 base).dirs).filterMap (entryName base)) = [] := by
      rw [List.filterMap_eq_nil_iff]
      intro x hx
      rcases List.mem_append.mp hx with hx | hx
      · rcases List.mem_map.mp hx with ⟨f, hf, rfl⟩
        exact entryName_not_under base f.1 (h1 f hf)
      · rcases mkdir_dirs_sub w0 base x hx with heq | hx'
        · rw [heq]
          exact entryName_self base
        · exact entryName_not_under base x (h2 x hx')
    apply getAllKeys_ok
    rw [hnil]
    rfl
  · obtain ⟨k, w2, hkey, hdirne, hw'⟩ := setItem_ok_inv C base key value w w' hset
    have hpres := getEncryptionKey_preserves
      (if pathExists w base then w else makeDirectoryAsync w base)
    rw [hkey] at hpres
    have hw2files : w2.files =
        (if pathExists w base then w else makeDirectoryAsync w base).files := hpres.1
    have hw2dirs : w2.dirs =
        (if pathExists w base then w else makeDirectoryAsync w base).dirs := hpres.2.1
    have hfiles2 : w2.files = w.files := by
      rw [hw2files]
      split
      · rfl
      · exact mkdir_files w base
    have hdirs2 : ∀ d ∈ w2.dirs, d = base ∨ d ∈ w.dirs := by
      intro d hd
      rw [hw2dirs] at hd
      split at hd
      · exact Or.inr hd
      · exact mkdir_dirs_sub w base d hd
    by_cases hkeep : keepSeg (encodeURIComponent key).data = true
    · have hslash : '/' ∉ (encodeURIComponent key).data := encList_no_slash key.data
      have hp : pathForKey base key = (base ++ "/") ++ encodeURIComponent key :=
        resolvePath_pair base (encodeURIComponent key) hb hkeep hslash
      have hcont : (encodeURIComponent key).data.contains '/' = false :=
        contains_eq_false_of_not_mem _ _ hslash
      have hw'files : w'.files = setAssoc w.files (pathForKey base key) (C.enc value k) := by
        rw [hw']
        show setAssoc w2.files _ _ = _
        rw [hfiles2]
      have hw'dirs : w'.dirs = w2.dirs := by rw [hw']
      have hnames : ∀ n ∈ ((w'.files.map (fun f => f.1) ++
          (makeDirectoryAsync w' base).dirs).filterMap (entryName base)),
          ∃ k', n = encodeURIComponent k' := by
        intro n hn
        rcases List.mem_filterMap.mp hn with ⟨x, hx, hxn⟩
        rcases List.mem_append.mp hx with hx | hx
        · rcases List.mem_map.mp hx with ⟨f, hf, rfl⟩
          rw [hw'files] at hf
          rcases mem_setAssoc _ _ _ f hf with rfl | hf'
          · refine ⟨key, ?_⟩
            rw [hp, entryName_append base _ hcont] at hxn
            injection hxn with hxn
            rw [← hxn]
          · by_cases hu : underPath base f.1 = true
            · rcases hfiles f hf' hu with ⟨k', hk'⟩
              refine ⟨k', ?_⟩
              have hcont' : (encodeURIComponent k').data.contains '/' = false :=
                contains_eq_false_of_not_mem _ _ (encList_no_slash k'.data)
              rw [hk', entryName_append base (encodeURIComponent k') hcont'] at hxn
              injection hxn with hxn
              rw [← hxn]
            · rw [entryName_not_under base f.1 (by simpa using hu)] at hxn
              cases hxn
        · rcases mkdir_dirs_sub w' base x hx with heq | hx'
          · rw [heq, entryName_self] at hxn
            cases hxn
          · rw [hw'dirs] at hx'
            rcases hdirs2 x hx' with heq | hx''
            · rw [heq, entryName_self] at hxn
              cases hxn
            · rw [entryName_not_under base x (hdirs x hx'')] at hxn
              cases hxn
      have hkeymem : encodeURIComponent key ∈ ((w'.files.map (fun f => f.1) ++
          (makeDirectoryAsync w' base).dirs).filterMap (entryName base)) := by
        apply List.mem_filterMap.mpr
        refine ⟨pathForKey base key, ?_, ?_⟩
        · apply List.mem_append.mpr
          left
          apply List.mem_map.mpr
          refine ⟨(pathForKey base key, C.enc value k), ?_, rfl⟩
          rw [hw'files]
          exact lookup_mem _ _ _ (lookup_setAssoc_self _ _ _)
        · rw [hp]
          exact entryName_append base _ hcont
      obtain ⟨ks, hks, hmem⟩ := decodeAll_mem _ hnames
      exact ⟨ks, getAllKeys_ok base w' ks hks, hmem key hkeymem⟩
    · exfalso
      have hkeep' : keepSeg (encodeURIComponent key).data = false := by
        simpa using hkeep
      have hp : pathForKey base key = base :=
        resolvePath_dropSeg base (encodeURIComponent key) hb hkeep'
      have hbmem : base ∈ (if pathExists w base then w else makeDirectoryAsync w base).dirs := by
        split
        · rename_i hex
          unfold pathExists at hex
          rw [hbase_file] at hex
          simp only [Option.isSome_none, Bool.false_or] at hex
          exact contains_mem _ _ hex
        · unfold makeDirectoryAsync
          split
          · rename_i h
            exact contains_mem _ _ h
          · exact List.mem_cons_self _ _
      have hbmem2 : pathForKey base key ∈ w2.dirs := by
        rw [hp, hw2dirs]
        exact hbmem
      have := mem_contains w2.dirs (pathForKey base key) hbmem2
      rw [hdirne] at this
      cases this

/-- C9 witness: writing the separator-containing key `"a/b"` on a fresh
installation makes `getAllKeys` return a collection containing the exact
string `"a/b"`. -/
theorem claim9_witness :
    ∃ ks, (getAllKeys demoBase (setItem idCipher demoBase "a/b" "v" emptyWorld).2).1 =
        Except.ok ks ∧ "a/b" ∈ ks :=
  (claim9_getAllKeys_returns_original_keys idCipher demoBase "a/b" "v" emptyWorld _
    (by decide) rfl (fun f hf => absurd hf (List.not_mem_nil f))
    (fun d hd => absurd hd (List.not_mem_nil d)) (by decide)).2

/-- C10: `removeItem` is idempotent: it always succeeds (in particular on
a key with no file), and running it twice in a row succeeds with the
second call leaving the state unchanged. -/
theorem claim10_removeItem_idempotent (base key : String) (w : World) :
    (removeItem base key w).1 = Except.ok () ∧
    removeItem base key (removeItem base key w).2 =
      (Except.ok (), (removeItem base key w).2) := by
  refine ⟨rfl, ?_⟩
  unfold removeItem deleteAsync
  simp only [Prod.mk.injEq, true_and]
  simp [filter_self_idem]

end FsSecure
